import Mathlib

/-!
# Verification of the `auxrec.py` aux-data signal-processing engine

This file gives a shallow embedding of the signal-processing core of
`LvdAuxRecorder` (file `auxrecorder/auxrec.py`): edge detection, channel
cleaning, imaging-frame-clock derivation (standard and fUSI mode),
darkframe/data-onset computation, event-to-frame mapping, ball-position
unwrapping and running-speed binning.  Analog sample values are modelled
as rationals (`ℚ`); sample indices as naturals.  Python/NumPy operations
that can raise (out-of-bounds indexing, `argmin`/`argmax` of an empty
array, division by zero) are modelled with `Option`, `none` standing for
a raised exception; NumPy's silent NaN results (mean of an empty slice)
are modelled with `Option ℚ`, `none` standing for NaN.
-/

attribute [local semireducible] Rat.mul Rat.add Rat.sub Rat.inv Rat.ofScientific

namespace AuxRec

/-- First differences of a rational-valued trace: `np.diff`,
`diffsQ l` has entries `l[i+1] - l[i]`. -/
def diffsQ (l : List ℚ) : List ℚ :=
  List.zipWith (fun a b => b - a) l l.tail

/-- First differences of a list of sample indices (`np.diff` on the
integer array of edge positions). -/
def diffsN (l : List ℕ) : List ℤ :=
  List.zipWith (fun (a b : ℕ) => (b : ℤ) - (a : ℤ)) l l.tail

/-- Mean of a list of integers as a rational (`np.mean`); meaningful only
for nonempty lists. -/
def meanInt (l : List ℤ) : ℚ :=
  ((l.sum : ℤ) : ℚ) / (l.length : ℚ)

/-- Mean of a list of rationals, `none` modelling the NaN that `np.mean`
produces on an empty slice. -/
def meanQ? (l : List ℚ) : Option ℚ :=
  if l.isEmpty then none else some (l.sum / (l.length : ℚ))

/-- `np.round`: round half to even (banker's rounding), as NumPy does. -/
def roundHalfEven (q : ℚ) : ℤ :=
  let f := ⌊q⌋
  let r := q - (f : ℚ)
  if r < 1/2 then f
  else if (1:ℚ)/2 < r then f + 1
  else if f % 2 = 0 then f else f + 1

/-- `np.argmin` on a list of naturals: index of the first minimum
(ties broken toward the lowest index). -/
def firstIdxMin : List ℕ → ℕ
  | [] => 0
  | [_] => 0
  | x :: xs =>
    let j := firstIdxMin xs
    if xs.getD j 0 < x then j + 1 else 0

/-- `np.argmax` on a list of naturals: index of the first maximum
(ties broken toward the lowest index). -/
def firstIdxMax : List ℕ → ℕ
  | [] => 0
  | [_] => 0
  | x :: xs =>
    let j := firstIdxMax xs
    if x < xs.getD j 0 then j + 1 else 0

/-- Python extended slicing `l[start::step]` (stride-subsampling used for
multi-plane piezo stacks). -/
def pyStride (l : List α) (start step : ℕ) : List α :=
  (List.range l.length).filterMap
    (fun i => if start ≤ i ∧ (i - start) % step = 0 then l.get? i else none)

/-- Rising edges of the thresholded channel:
`np.argwhere(np.diff((data > thr) * 1.0) > 0) + 1`. -/
def risingEdges (data : List ℚ) (thr : ℚ) : List ℕ :=
  ((List.range (data.length - 1)).filter
    (fun i => ¬(thr < data.getD i 0) ∧ thr < data.getD (i + 1) 0)).map (· + 1)

/-- Falling edges of the thresholded channel:
`np.argwhere(np.diff((data > thr) * 1.0) < 0) + 1`. -/
def fallingEdges (data : List ℚ) (thr : ℚ) : List ℕ :=
  ((List.range (data.length - 1)).filter
    (fun i => thr < data.getD i 0 ∧ ¬(thr < data.getD (i + 1) 0))).map (· + 1)

/-- Rising edges of the below-threshold indicator:
`np.argwhere(np.diff((data < thr) * 1.0) > 0) + 1` (used as the
"drop below threshold" event in `_clean_channel`). -/
def risingEdgesLt (data : List ℚ) (thr : ℚ) : List ℕ :=
  ((List.range (data.length - 1)).filter
    (fun i => ¬(data.getD i 0 < thr) ∧ data.getD (i + 1) 0 < thr)).map (· + 1)

/-- Edges in either direction (fUSI toggling trigger):
`np.argwhere(np.abs(np.diff((data > thr) * 1.0)) > 0) + 1`. -/
def bothEdges (data : List ℚ) (thr : ℚ) : List ℕ :=
  ((List.range (data.length - 1)).filter
    (fun i => ¬((thr < data.getD i 0) ↔ (thr < data.getD (i + 1) 0)))).map (· + 1)

/-- Rising edges of the equality indicator
`np.argwhere(np.diff((cleaned == value) * 1.0) > 0) + 1` (darkframe onset). -/
def risingEdgesEq (data : List ℚ) (v : ℚ) : List ℕ :=
  ((List.range (data.length - 1)).filter
    (fun i => ¬(data.getD i 0 = v) ∧ data.getD (i + 1) 0 = v)).map (· + 1)

/-- Rising edges of the inequality indicator
`np.argwhere(np.diff((cleaned != value) * 1.0) > 0) + 1` (darkframe offset). -/
def risingEdgesNe (data : List ℚ) (v : ℚ) : List ℕ :=
  ((List.range (data.length - 1)).filter
    (fun i => data.getD i 0 = v ∧ ¬(data.getD (i + 1) 0 = v))).map (· + 1)

/-- Numpy-style slice assignment `out[a:b] = v` on a list (length preserved;
positions in `[a, b)` receive `v`, all others keep their value). -/
def setRange (l : List ℚ) (a b : ℕ) (v : ℚ) : List ℚ :=
  (List.range l.length).map (fun i => if a ≤ i ∧ i < b then v else l.getD i 0)

/-- `np.unique` values output: the distinct elements of `l` in ascending
order. -/
def sortedUnique (l : List ℤ) : List ℤ :=
  List.insertionSort (· ≤ ·) l.dedup

/-- The value assigned by `_clean_channel` to an on-interval:
`values[np.argmax(counts)]` for `values, counts = np.unique(vals, return_counts=True)`,
i.e. the most frequent element, ties broken toward the lowest value. -/
def modeLowest (l : List ℤ) : ℤ :=
  let values := sortedUnique l
  let counts := values.map (fun v => l.count v)
  values.getD (firstIdxMax counts) 0

/-- The quantized values of the slice `data[a:b]`:
`np.round(channeldata[on:off] / resolution)`. -/
def quantSlice (data : List ℚ) (res : ℚ) (a b : ℕ) : List ℤ :=
  ((data.drop a).take (b - a)).map (fun v => roundHalfEven (v / res))

/-- One iteration of the cleaning loop of `_clean_channel`: given the pair
`(on, off)` of a rising crossing and the matching drop, replace
`cleaneddata[on:off]` by the modal quantized value of `channeldata[on:off]`
times the resolution.  `none` models the `ValueError` that
`np.argmax(counts)` raises when the slice `channeldata[on:off]` is empty. -/
def cleanStep (data : List ℚ) (res : ℚ) (acc : List ℚ) (p : ℕ × ℕ) :
    Option (List ℚ) :=
  let vals := quantSlice data res p.1 p.2
  if vals.isEmpty then none
  else some (setRange acc p.1 p.2 ((modeLowest vals : ℚ) * res))

/-- `_clean_channel(channelname, threshold, resolution)` (without the
`set_first_to_zero` mutation, which is handled by `calcDarkframesSt`):
pair up the rising crossings of `(data > threshold)` with the rising
crossings of `(data < threshold)` positionally (`zip`), and overwrite a
zero-initialised buffer interval by interval with the modal quantized
value.  `none` models a raised exception. -/
def cleanChannel (data : List ℚ) (thr res : ℚ) : Option (List ℚ) :=
  let ups := risingEdges data thr
  let downs := risingEdgesLt data thr
  (ups.zip downs).foldlM (cleanStep data res) (List.replicate data.length 0)

/-- `np.argmin(np.abs(imframes - e))`: index into the frame-onset list of
the imaging frame nearest (L1) to sample index `e`, first minimum wins. -/
def nearestFrame (imframes : List ℕ) (e : ℕ) : ℕ :=
  firstIdxMin (imframes.map (fun (fr : ℕ) => ((fr : ℤ) - (e : ℤ)).natAbs))

/-- Core of `_calculate_darkframes_dataonset` after the channel has been
cleaned: detect the dark-level onset and offset edges, return the sentinel
`(none, none, 0)` when both edge sets are empty, and otherwise map the
first onset/offset edges to their nearest imaging frames and apply the
±1 safety margins and the one-imaging-second data-onset buffer.  The outer
`none` models a raised exception (`df_onset[0]`/`df_offset[0]` on an empty
array, or `np.argmin` over an empty frame list). -/
def darkCore (cleaned : List ℚ) (value : ℚ) (imframes : List ℕ)
    (imagingsf : ℚ) : Option (Option ℤ × Option ℤ × ℤ) :=
  let dfOnset := risingEdgesEq cleaned value
  let dfOffset := risingEdgesNe cleaned value
  if dfOnset.isEmpty ∧ dfOffset.isEmpty then some (none, none, 0)
  else
    match dfOnset, dfOffset with
    | o :: _, f :: _ =>
      if imframes.isEmpty then none
      else
        let dfOnsetFr := nearestFrame imframes o
        let dfOffsetFr := nearestFrame imframes f
        let dataonset := ⌈(dfOffsetFr : ℚ) + imagingsf⌉
        some (some ((dfOnsetFr : ℤ) + 1), some ((dfOffsetFr : ℤ) - 1),
          dataonset + 1)
    | _, _ => none

/-- The mutable per-session store of the raw sample data for the darkframes
channel (the column `self._auxdata[:, channelnr]` that the cleaning
recovery path mutates in place). -/
structure DarkState where
  auxchan : List ℚ
  deriving Repr, DecidableEq

/-- `raw_channel` read of the darkframes channel from the session store. -/
def rawChannel (st : DarkState) : List ℚ :=
  st.auxchan

/-- `_calculate_darkframes_dataonset` with its `try/except` recovery path,
modelled with explicit state passing: if the first cleaning attempt raises,
sample 0 of the stored channel is set to `0.0` in place and cleaning is
re-run on the mutated channel; the mutated store is returned alongside the
result.  `none` models an exception escaping the method. -/
def calcDarkframesSt (st : DarkState) (thr res value : ℚ)
    (imframes : List ℕ) (imagingsf : ℚ) :
    Option ((Option ℤ × Option ℤ × ℤ) × DarkState) :=
  match cleanChannel st.auxchan thr res with
  | some cleaned => (darkCore cleaned value imframes imagingsf).map (·, st)
  | none =>
    let chan' := st.auxchan.set 0 0
    match cleanChannel chan' thr res with
    | some cleaned =>
        (darkCore cleaned value imframes imagingsf).map (·, ⟨chan'⟩)
    | none => none

/-- Middle window `ifis[20:-20]` of the inter-edge gaps, used for the
fUSI mean-gap estimate. -/
def midWindow (l : List ℤ) : List ℤ :=
  (l.drop 20).take (l.length - 40)

/-- Mean inter-edge gap over the trimmed middle window
(`np.mean(ifis[20:-20])`). -/
def fusiMean (frameonsets : List ℕ) : ℚ :=
  meanInt (midWindow (diffsN frameonsets))

/-- The fUSI startup-trigger removal loop
(`for i in range(100): if ifis[i] < 0.7*mean_ifi: drop head else break`):
returns the number of leading edges dropped, `none` modelling the
`IndexError` raised by `ifis[i]` when `i` runs past the gap list.  The
`mean?` argument is `none` when the middle window was empty (NaN mean; a
comparison with NaN is false, so the loop breaks). -/
def fusiGo (ifis : List ℤ) (mean? : Option ℚ) : ℕ → ℕ → Option ℕ
  | _, 0 => some 100
  | i, fuel + 1 =>
    match ifis.get? i with
    | none => none
    | some g =>
      match mean? with
      | some m => if (g : ℚ) < 7/10 * m then fusiGo ifis mean? (i + 1) fuel
                  else some i
      | none => some i

/-- fUSI spurious-edge filtering (`_calculate_imaging_frames`, fUSI branch):
drop leading edges whose gap to their successor is below 70% of the
trimmed-middle-window mean gap, then drop the first and last surviving
edges (`frameonsets[1:-1]`). -/
def fusiFilter (frameonsets : List ℕ) : Option (List ℕ) :=
  let ifis := diffsN frameonsets
  let mid := midWindow ifis
  let mean? : Option ℚ := if mid.isEmpty then none else some (meanInt mid)
  match fusiGo ifis mean? 0 100 with
  | none => none
  | some k => some (((frameonsets.drop k).drop 1).dropLast)

/-- Inter-frame interval in seconds:
`np.round(np.mean(frameonsets[1:] - frameonsets[:-1])) / sf`; `none`
models the NaN produced when fewer than two onsets remain. -/
def ifiOf (frameonsets : List ℕ) (sf : ℕ) : Option ℚ :=
  let ifis := diffsN frameonsets
  if ifis.isEmpty then none
  else some ((roundHalfEven (meanInt ifis) : ℚ) / (sf : ℚ))

/-- `_calculate_imaging_frames` in standard (non-fUSI) mode: rising edges
of the frame-count channel, optional plane-stride subsampling, and the
mean inter-frame interval.  This branch never raises. -/
def calcImagingFramesStd (data : List ℚ) (thr : ℚ) (plane nplanes sf : ℕ) :
    List ℕ × Option ℚ :=
  let frameonsets := risingEdges data thr
  let frameonsets :=
    if 1 < nplanes then pyStride frameonsets plane nplanes else frameonsets
  (frameonsets, ifiOf frameonsets sf)

/-- `_calculate_imaging_frames` in fUSI mode: edges on either transition,
spurious-edge filtering, boundary-edge removal, optional plane-stride
subsampling, and the mean inter-frame interval.  `none` models a raised
exception (the `ifis[i]` `IndexError` inside the filtering loop). -/
def calcImagingFramesFUSI (data : List ℚ) (thr : ℚ) (plane nplanes sf : ℕ) :
    Option (List ℕ × Option ℚ) :=
  let frameonsets := bothEdges data thr
  match fusiFilter frameonsets with
  | none => none
  | some fo =>
    let fo := if 1 < nplanes then pyStride fo plane nplanes else fo
    some (fo, ifiOf fo sf)

/-- `smooth(y, box_pts)`: `np.convolve(y, np.ones(m)/m, mode='same')` —
full convolution with a length-`m` box kernel, sliced to the centred
window of length `max(len y, m)`. -/
def smooth (y : List ℚ) (m : ℕ) : List ℚ :=
  let n := y.length
  let full := (List.range (n + m - 1)).map
    (fun k => (((List.range n).map
      (fun j => if j ≤ k ∧ k - j < m then y.getD j 0 / (m : ℚ) else 0)).sum))
  (full.drop ((min n m - 1) / 2)).take (max n m)

/-- Add `δ` to every sample from index `a` on
(`position[(f+1):] = position[(f+1):] + lastposdiff`). -/
def addFrom (p : List ℚ) (a : ℕ) (δ : ℚ) : List ℚ :=
  (List.range p.length).map
    (fun i => if a ≤ i then p.getD i 0 + δ else p.getD i 0)

/-- Wrap points of the raw ball-position trace:
`np.argwhere(np.abs(np.diff(position)) > 2)`. -/
def wrapFlips (raw : List ℚ) : List ℕ :=
  (List.range (diffsQ raw).length).filter (fun f => 2 < |(diffsQ raw).getD f 0|)

/-- The `position` property: unwrap the raw ball-position trace by adding,
at every wrap point `f`, the running offset `position[f] - position[f+1]`
to every subsequent sample. -/
def positionUnwrap (raw : List ℚ) : List ℚ :=
  (wrapFlips raw).foldl
    (fun p f => addFrom p (f + 1) (p.getD f 0 - p.getD (f + 1) 0)) raw

/-- Proof-auxiliary closed form: the total offset that the unwrap loop has
added at position `i` after processing the wrap points `fs`. -/
def offsetAt (raw : List ℚ) : List ℕ → ℕ → ℚ
  | [], _ => 0
  | f :: fs, i =>
    (if f + 1 ≤ i then raw.getD f 0 - raw.getD (f + 1) 0 else 0) +
      offsetAt raw fs i

/-- The smoothed, velocity-scaled speed trace shared by both branches of
`runningspeed`: `smooth(np.diff(position), int(sf/10)) * sf`. -/
def speedTrace (raw : List ℚ) (sf : ℕ) : List ℚ :=
  (smooth (diffsQ (positionUnwrap raw)) (sf / 10)).map (fun v => v * (sf : ℚ))

/-- The `runningspeed` property in behavior-only mode: cut the smoothed
speed trace into `floor(len / n_sampl_bin)` consecutive bins of
`n_sampl_bin = int(sf/100)` samples and return the mean of each bin.
`none` models the `ZeroDivisionError` when `int(sf/100) = 0`. -/
def runningspeedBehav (raw : List ℚ) (sf : ℕ) : Option (List ℚ) :=
  let speed := speedTrace raw sf
  let nSamplBin := sf / 100
  if nSamplBin = 0 then none
  else
    let nBins := speed.length / nSamplBin
    some ((List.range nBins).map
      (fun b => ((speed.drop (b * nSamplBin)).take nSamplBin).sum /
        (nSamplBin : ℚ)))

/-- The `runningspeed` property in imaging mode: average the smoothed speed
trace within a window of `floor(mean inter-onset gap)` samples aligned to
each frame onset.  Entry `none` models the NaN that `np.mean` yields on an
empty window (including the garbage-gap path when fewer than two onsets
exist). -/
def runningspeedImaging (raw : List ℚ) (sf : ℕ) (imframes : List ℕ) :
    List (Option ℚ) :=
  let speed := speedTrace raw sf
  let ifis := diffsN imframes
  let gap? : Option ℕ :=
    if ifis.isEmpty then none else some (Int.toNat ⌊meanInt ifis⌋)
  imframes.map (fun f =>
    match gap? with
    | none => none
    | some g => meanQ? ((speed.drop f).take g))

/-- `_process_channel_to_frames_or_ts` in imaging mode: threshold the event
channel, detect onset (`"on"`) or offset (`"off"`) edges and map each edge
to the nearest imaging-frame index. -/
def processChannelFrames (data : List ℚ) (thr : ℚ) (onEdges : Bool)
    (imframes : List ℕ) : List ℕ :=
  let edges := if onEdges then risingEdges data thr else fallingEdges data thr
  edges.map (nearestFrame imframes)

/-- The per-session state relevant to the imaging-plane claims: the
frame-count channel and its threshold, the plane bookkeeping, and the
frame-clock fields `_imframes` / `_imifi` computed at construction. -/
structure LvdAux where
  framechannel : List ℚ
  framethreshold : ℚ
  nimagingplanes : ℕ
  sf : ℕ
  imagingplane : ℕ
  imframes : List ℕ
  imifi : Option ℚ
  deriving Repr, DecidableEq

/-- `__init__` for a standard (non-fUSI, non-behavior-only) session: the
initial plane index is 0 and the frame clock is computed once, with that
initial plane index. -/
def mkLvdAux (fc : List ℚ) (thr : ℚ) (nplanes sf : ℕ) : LvdAux :=
  let r := calcImagingFramesStd fc thr 0 nplanes sf
  { framechannel := fc, framethreshold := thr, nimagingplanes := nplanes,
    sf := sf, imagingplane := 0, imframes := r.1, imifi := r.2 }

/-- The `imagingplane` setter: stores the new index. -/
def setImagingplane (s : LvdAux) (n : ℕ) : LvdAux :=
  { s with imagingplane := n }

/-- The `imagingframes` property. -/
def imagingframes (s : LvdAux) : List ℕ :=
  s.imframes

/-- The `imagingifi` property. -/
def imagingifi (s : LvdAux) : Option ℚ :=
  s.imifi

/-- `_process_channel_to_frames_or_ts` as invoked on a session (uses the
stored frame clock `_imframes`). -/
def sessionEventFrames (s : LvdAux) (data : List ℚ) (thr : ℚ)
    (onEdges : Bool) : List ℕ :=
  processChannelFrames data thr onEdges s.imframes

/-- `runningspeed` as invoked on an imaging session (uses the stored frame
clock `_imframes`). -/
def sessionRunningspeed (s : LvdAux) (ballraw : List ℚ) : List (Option ℚ) :=
  runningspeedImaging ballraw s.sf s.imframes

/-! ## Characterization of the first-minimum / first-maximum index -/

theorem firstIdxMin_lt_length (l : List ℕ) (h : l ≠ []) :
    firstIdxMin l < l.length := by
  induction l with
  | nil => simp at h
  | cons x xs ih =>
    cases xs with
    | nil => simp [firstIdxMin]
    | cons y ys =>
      simp only [firstIdxMin]
      split
      · simpa using ih (by simp)
      · simp

theorem firstIdxMin_le (l : List ℕ) :
    ∀ j < l.length, l.getD (firstIdxMin l) 0 ≤ l.getD j 0 := by
  induction l with
  | nil => simp
  | cons x xs ih =>
    cases xs with
    | nil =>
      intro j hj
      cases j with
      | zero => simp [firstIdxMin]
      | succ k => simp at hj
    | cons y ys =>
      intro j hj
      simp only [firstIdxMin]
      by_cases h : (y :: ys).getD (firstIdxMin (y :: ys)) 0 < x
      · rw [if_pos h]
        cases j with
        | zero => simpa using le_of_lt h
        | succ k =>
          simpa using ih k (by simpa using hj)
      · rw [if_neg h]
        cases j with
        | zero => simp
        | succ k =>
          have h2 := ih k (by simpa using hj)
          simp only [List.getD_cons_zero, List.getD_cons_succ]
          exact le_trans (le_of_not_lt h) h2

theorem firstIdxMin_lt_of_lt (l : List ℕ) :
    ∀ j < firstIdxMin l, l.getD (firstIdxMin l) 0 < l.getD j 0 := by
  induction l with
  | nil => simp [firstIdxMin]
  | cons x xs ih =>
    cases xs with
    | nil => simp [firstIdxMin]
    | cons y ys =>
      intro j hj
      simp only [firstIdxMin] at hj ⊢
      by_cases h : (y :: ys).getD (firstIdxMin (y :: ys)) 0 < x
      · rw [if_pos h] at hj ⊢
        cases j with
        | zero => simpa using h
        | succ k =>
          rw [List.getD_cons_succ, List.getD_cons_succ]
          exact ih k (by omega)
      · rw [if_neg h] at hj
        omega

theorem firstIdxMin_eq_of (l : List ℕ) (i : ℕ) (hi : i < l.length)
    (hmin : ∀ j < l.length, l.getD i 0 ≤ l.getD j 0)
    (hbef : ∀ j < i, l.getD i 0 < l.getD j 0) : firstIdxMin l = i := by
  have hne : l ≠ [] := by
    intro h; rw [h] at hi; simp at hi
  have hr := firstIdxMin_lt_length l hne
  rcases lt_trichotomy (firstIdxMin l) i with h | h | h
  · have h1 := hbef _ h
    have h2 := firstIdxMin_le l i hi
    omega
  · exact h
  · have h1 := firstIdxMin_lt_of_lt l i h
    have h2 := hmin _ hr
    omega

theorem firstIdxMax_lt_length (l : List ℕ) (h : l ≠ []) :
    firstIdxMax l < l.length := by
  induction l with
  | nil => simp at h
  | cons x xs ih =>
    cases xs with
    | nil => simp [firstIdxMax]
    | cons y ys =>
      simp only [firstIdxMax]
      split
      · simpa using ih (by simp)
      · simp

theorem firstIdxMax_ge (l : List ℕ) :
    ∀ j < l.length, l.getD j 0 ≤ l.getD (firstIdxMax l) 0 := by
  induction l with
  | nil => simp
  | cons x xs ih =>
    cases xs with
    | nil =>
      intro j hj
      cases j with
      | zero => simp [firstIdxMax]
      | succ k => simp at hj
    | cons y ys =>
      intro j hj
      simp only [firstIdxMax]
      by_cases h : x < (y :: ys).getD (firstIdxMax (y :: ys)) 0
      · rw [if_pos h]
        cases j with
        | zero => simpa using le_of_lt h
        | succ k =>
          simpa using ih k (by simpa using hj)
      · rw [if_neg h]
        cases j with
        | zero => simp
        | succ k =>
          have h2 := ih k (by simpa using hj)
          simp only [List.getD_cons_zero, List.getD_cons_succ]
          exact le_trans h2 (le_of_not_lt h)

theorem firstIdxMax_gt_of_lt (l : List ℕ) :
    ∀ j < firstIdxMax l, l.getD j 0 < l.getD (firstIdxMax l) 0 := by
  induction l with
  | nil => simp [firstIdxMax]
  | cons x xs ih =>
    cases xs with
    | nil => simp [firstIdxMax]
    | cons y ys =>
      intro j hj
      simp only [firstIdxMax] at hj ⊢
      by_cases h : x < (y :: ys).getD (firstIdxMax (y :: ys)) 0
      · rw [if_pos h] at hj ⊢
        cases j with
        | zero => simpa using h
        | succ k =>
          rw [List.getD_cons_succ, List.getD_cons_succ]
          exact ih k (by omega)
      · rw [if_neg h] at hj
        omega

/-! ## Lemmas about `getD`, `map` and pairwise-sorted lists -/

theorem getD_map_lt {α β : Type} (f : α → β) (l : List α) (j : ℕ)
    (h : j < l.length) (d : β) (d' : α) :
    (l.map f).getD j d = f (l.getD j d') := by
  rw [List.getD_eq_getElem _ _ (by simpa using h), List.getD_eq_getElem _ _ h,
    List.getElem_map]

theorem getD_map_range {α : Type} (f : ℕ → α) (n i : ℕ) (d : α) :
    ((List.range n).map f).getD i d = if i < n then f i else d := by
  rcases Nat.lt_or_ge i n with h | h
  · rw [if_pos h, List.getD_eq_getElem _ _ (by simpa using h)]
    simp [List.getElem_map, List.getElem_range]
  · rw [if_neg (by omega), List.getD_eq_default _ _ (by simpa using h)]

theorem getD_lt_getD_of_pairwise {l : List ℕ}
    (h : List.Pairwise (· < ·) l) {i j : ℕ} (hij : i < j)
    (hj : j < l.length) :
    l.getD i 0 < l.getD j 0 := by
  rw [List.getD_eq_getElem _ _ (lt_trans hij hj), List.getD_eq_getElem _ _ hj]
  exact List.pairwise_iff_getElem.mp h i j (lt_trans hij hj) hj hij

/-! ## Characterization of the event-to-frame nearest mapping -/

theorem nearestFrame_lt_length (imframes : List ℕ) (e : ℕ)
    (h : imframes ≠ []) : nearestFrame imframes e < imframes.length := by
  have := firstIdxMin_lt_length
    (imframes.map (fun (fr : ℕ) => ((fr : ℤ) - (e : ℤ)).natAbs)) (by simpa using h)
  simpa [nearestFrame] using this

theorem nearestFrame_min (imframes : List ℕ) (e : ℕ) (h : imframes ≠ []) :
    ∀ j < imframes.length,
      ((imframes.getD (nearestFrame imframes e) 0 : ℤ) - (e : ℤ)).natAbs ≤
        ((imframes.getD j 0 : ℤ) - (e : ℤ)).natAbs := by
  intro j hj
  have h1 := firstIdxMin_le
    (imframes.map (fun (fr : ℕ) => ((fr : ℤ) - (e : ℤ)).natAbs)) j (by simpa using hj)
  have h2 : (imframes.map (fun (fr : ℕ) => ((fr : ℤ) - (e : ℤ)).natAbs)).getD
      (nearestFrame imframes e) 0 ≤
      (imframes.map (fun (fr : ℕ) => ((fr : ℤ) - (e : ℤ)).natAbs)).getD j 0 := h1
  rw [getD_map_lt _ _ _ hj 0 0,
    getD_map_lt _ _ _ (nearestFrame_lt_length imframes e h) 0 0] at h2
  exact h2

theorem nearestFrame_first (imframes : List ℕ) (e : ℕ) (h : imframes ≠ []) :
    ∀ j < nearestFrame imframes e,
      ((imframes.getD (nearestFrame imframes e) 0 : ℤ) - (e : ℤ)).natAbs <
        ((imframes.getD j 0 : ℤ) - (e : ℤ)).natAbs := by
  intro j hj
  have h1 := firstIdxMin_lt_of_lt
    (imframes.map (fun (fr : ℕ) => ((fr : ℤ) - (e : ℤ)).natAbs)) j (by simpa using hj)
  have hjlen : j < imframes.length :=
    lt_trans hj (nearestFrame_lt_length imframes e h)
  have h2 : (imframes.map (fun (fr : ℕ) => ((fr : ℤ) - (e : ℤ)).natAbs)).getD
      (nearestFrame imframes e) 0 <
      (imframes.map (fun (fr : ℕ) => ((fr : ℤ) - (e : ℤ)).natAbs)).getD j 0 := h1
  rw [getD_map_lt _ _ _ hjlen 0 0,
    getD_map_lt _ _ _ (nearestFrame_lt_length imframes e h) 0 0] at h2
  exact h2

theorem nearestFrame_eq_of (imframes : List ℕ) (e : ℕ) (i : ℕ)
    (hi : i < imframes.length)
    (hmin : ∀ j < imframes.length,
      ((imframes.getD i 0 : ℤ) - (e : ℤ)).natAbs ≤
        ((imframes.getD j 0 : ℤ) - (e : ℤ)).natAbs)
    (hbef : ∀ j < i,
      ((imframes.getD i 0 : ℤ) - (e : ℤ)).natAbs <
        ((imframes.getD j 0 : ℤ) - (e : ℤ)).natAbs) :
    nearestFrame imframes e = i := by
  apply firstIdxMin_eq_of _ i (by simpa using hi)
  · intro j hj
    have hjlen : j < imframes.length := by simpa using hj
    rw [getD_map_lt _ _ _ hjlen 0 0, getD_map_lt _ _ _ hi 0 0]
    exact hmin j hjlen
  · intro j hj
    have hjlen : j < imframes.length := lt_trans hj hi
    rw [getD_map_lt _ _ _ hjlen 0 0, getD_map_lt _ _ _ hi 0 0]
    exact hbef j hj

/-- C4: In imaging (`frame_index`) mode, every detected event edge is
mapped to the index into the frame-onset list minimizing the L1 distance
between the frame onset and the event sample index; the first minimum
wins (all strictly earlier indices are strictly farther), so an event
exactly midway between two consecutive onsets of a strictly increasing
frame clock maps to the lower index.  Nothing prevents several events
from mapping to the same frame (the mapping is applied edge by edge). -/
theorem eventmapper_nearest_frame_argmin (imframes : List ℕ)
    (h : imframes ≠ []) :
    (∀ data thr onEdges,
      processChannelFrames data thr onEdges imframes =
        (if onEdges then risingEdges data thr else fallingEdges data thr).map
          (nearestFrame imframes))
    ∧ (∀ e : ℕ,
        nearestFrame imframes e < imframes.length
        ∧ (∀ j < imframes.length,
            ((imframes.getD (nearestFrame imframes e) 0 : ℤ) - (e : ℤ)).natAbs ≤
              ((imframes.getD j 0 : ℤ) - (e : ℤ)).natAbs)
        ∧ (∀ j < nearestFrame imframes e,
            ((imframes.getD (nearestFrame imframes e) 0 : ℤ) - (e : ℤ)).natAbs <
              ((imframes.getD j 0 : ℤ) - (e : ℤ)).natAbs))
    ∧ (List.Pairwise (· < ·) imframes →
        ∀ i δ e, i + 1 < imframes.length →
          imframes.getD i 0 + δ = e → e + δ = imframes.getD (i + 1) 0 →
          nearestFrame imframes e = i) := by
  refine ⟨fun _ _ _ => rfl, fun e => ⟨nearestFrame_lt_length imframes e h,
    nearestFrame_min imframes e h, nearestFrame_first imframes e h⟩, ?_⟩
  intro hsort i δ e hi1 hlo hhi
  have hi : i < imframes.length := by omega
  have hstep : imframes.getD i 0 < imframes.getD (i + 1) 0 :=
    getD_lt_getD_of_pairwise hsort (by omega) hi1
  have hδ : 0 < δ := by omega
  have hdist_i : ((imframes.getD i 0 : ℤ) - (e : ℤ)).natAbs = δ := by omega
  apply nearestFrame_eq_of imframes e i hi
  · intro j hj
    rcases lt_trichotomy j i with hji | hji | hji
    · have hmono : imframes.getD j 0 < imframes.getD i 0 :=
        getD_lt_getD_of_pairwise hsort hji hi
      omega
    · subst hji
      omega
    · rcases Nat.lt_or_ge j (i + 1 + 1) with hj2 | hj2
      · have hj1 : j = i + 1 := by omega
        subst hj1
        omega
      · have hmono : imframes.getD (i + 1) 0 < imframes.getD j 0 :=
          getD_lt_getD_of_pairwise hsort (by omega) hj
        omega
  · intro j hj
    have hmono : imframes.getD j 0 < imframes.getD i 0 :=
      getD_lt_getD_of_pairwise hsort hj hi
    omega

/-- Witness for C4 at a concrete input: with frame onsets `[0, 10]` the
event sample 5 lies exactly midway and is mapped to the lower frame 0,
which is also the first minimizer of the L1 distance. -/
theorem eventmapper_nearest_frame_argmin_witness :
    nearestFrame [0, 10] 5 = 0 ∧ nearestFrame [0, 10] 5 < 2 :=
  ⟨(eventmapper_nearest_frame_argmin [0, 10] (by decide)).2.2 (by decide)
      0 5 5 (by decide) (by decide) (by decide),
    ((eventmapper_nearest_frame_argmin [0, 10] (by decide)).2.1 5).1⟩

/-! ## Darkframe window computation -/

/-- C5: whenever the cleaned task channel has a dark-level transition
(both a first onset edge `o` and a first offset edge `f`), and the frame
clock is nonempty, the darkframe computation returns exactly
`(onset_frame + 1, offset_frame - 1, ceil(offset_frame + imagingsf) + 1)`
where `onset_frame`/`offset_frame` are the nearest-imaging-frame indices
of `o` and `f` (the conjuncts state the nearest-minimizing property). -/
theorem darkframes_triple (st : DarkState) (thr res value : ℚ)
    (imframes : List ℕ) (imagingsf : ℚ) (cleaned : List ℚ)
    (hclean : cleanChannel st.auxchan thr res = some cleaned)
    (o f : ℕ) (os fs : List ℕ)
    (hon : risingEdgesEq cleaned value = o :: os)
    (hoff : risingEdgesNe cleaned value = f :: fs)
    (hfr : imframes ≠ []) :
    calcDarkframesSt st thr res value imframes imagingsf =
      some ((some ((nearestFrame imframes o : ℤ) + 1),
        some ((nearestFrame imframes f : ℤ) - 1),
        ⌈(nearestFrame imframes f : ℚ) + imagingsf⌉ + 1), st)
    ∧ (∀ j < imframes.length,
        ((imframes.getD (nearestFrame imframes o) 0 : ℤ) - (o : ℤ)).natAbs ≤
          ((imframes.getD j 0 : ℤ) - (o : ℤ)).natAbs)
    ∧ (∀ j < imframes.length,
        ((imframes.getD (nearestFrame imframes f) 0 : ℤ) - (f : ℤ)).natAbs ≤
          ((imframes.getD j 0 : ℤ) - (f : ℤ)).natAbs) := by
  refine ⟨?_, nearestFrame_min imframes o hfr, nearestFrame_min imframes f hfr⟩
  have hne : imframes.isEmpty = false := by
    cases imframes with
    | nil => simp at hfr
    | cons a t => rfl
  simp [calcDarkframesSt, hclean, darkCore, hon, hoff, hne]

/-- Witness for C5 at a concrete input: channel `[0,2,2,0]`, threshold 1/2,
resolution 1, dark level 2, frame onsets `[0,2,4]`, imaging sampling
frequency 1. -/
theorem darkframes_triple_witness :
    calcDarkframesSt ⟨[0, 2, 2, 0]⟩ (1/2) 1 2 [0, 2, 4] 1 =
      some ((some 1, some 0, 3), ⟨[0, 2, 2, 0]⟩) :=
  ((darkframes_triple ⟨[0, 2, 2, 0]⟩ (1/2) 1 2 [0, 2, 4] 1 [0, 2, 2, 0]
    (by decide) 1 3 [] [] (by decide) (by decide) (by decide)).1).trans
    (by decide)

/-- C6: when the cleaned darkframe channel has no dark-level transition
(no onset edge and no offset edge), the darkframe computation returns the
sentinel `(none, none, 0)` (and no exception: the result is `some`, the
session store is untouched). -/
theorem darkframes_sentinel (st : DarkState) (thr res value : ℚ)
    (imframes : List ℕ) (imagingsf : ℚ) (cleaned : List ℚ)
    (hclean : cleanChannel st.auxchan thr res = some cleaned)
    (hon : risingEdgesEq cleaned value = [])
    (hoff : risingEdgesNe cleaned value = []) :
    calcDarkframesSt st thr res value imframes imagingsf =
      some ((none, none, 0), st) := by
  simp [calcDarkframesSt, hclean, darkCore, hon, hoff]

/-- Witness for C6 at a concrete input: the flat channel `[0,0]` has no
dark-level transition, so the computation reports `(none, none, 0)`. -/
theorem darkframes_sentinel_witness :
    calcDarkframesSt ⟨[0, 0]⟩ (1/2) 1 2 [0, 2] 1 =
      some ((none, none, 0), ⟨[0, 0]⟩) :=
  darkframes_sentinel ⟨[0, 0]⟩ (1/2) 1 2 [0, 2] 1 [0, 0]
    (by decide) (by decide) (by decide)

/-- An empty channel always cleans successfully (to the empty list). -/
theorem cleanChannel_nil (thr res : ℚ) : cleanChannel [] thr res = some [] := by
  rfl

/-- C10: when the darkframe cleaning recovery path is taken (the first
cleaning attempt raises and the computation still returns), the stored raw
channel itself has been permanently modified: sample 0 of the source
channel is set to `0.0` in place, and every subsequent `raw_channel` read
observes the altered value (the first sample now reads 0). -/
theorem clean_recovery_mutates (st : DarkState) (thr res value : ℚ)
    (imframes : List ℕ) (imagingsf : ℚ)
    (r : Option ℤ × Option ℤ × ℤ) (st' : DarkState)
    (hfail : cleanChannel st.auxchan thr res = none)
    (hrun : calcDarkframesSt st thr res value imframes imagingsf =
      some (r, st')) :
    st'.auxchan = st.auxchan.set 0 0 ∧
    rawChannel st' = st.auxchan.set 0 0 ∧
    st.auxchan ≠ [] ∧
    (rawChannel st').getD 0 1 = 0 := by
  have hne : st.auxchan ≠ [] := by
    intro h
    rw [show st = (⟨[]⟩ : DarkState) from by cases st; simpa using h,
      cleanChannel_nil] at hfail
    exact Option.noConfusion hfail
  rcases h2 : cleanChannel (st.auxchan.set 0 0) thr res with _ | cleaned
  · simp only [calcDarkframesSt, hfail, h2] at hrun
    exact Option.noConfusion hrun
  · simp only [calcDarkframesSt, hfail, h2] at hrun
    rcases h3 : darkCore cleaned value imframes imagingsf with _ | r0
    · rw [h3, Option.map_none'] at hrun
      exact Option.noConfusion hrun
    · rw [h3] at hrun
      simp only [Option.map_some', Option.some.injEq, Prod.mk.injEq] at hrun
      have hst : st' = ⟨st.auxchan.set 0 0⟩ := hrun.2.symm
      refine ⟨by rw [hst], by rw [hst]; rfl, hne, ?_⟩
      rw [hst]
      cases h : st.auxchan with
      | nil => exact absurd h hne
      | cons a t => simp [rawChannel, h]

/-- Witness for C10 at a concrete input: channel `[5,0,5,0]` starts above
the threshold, the first cleaning attempt raises, and the recovery path
leaves the stored channel mutated to `[0,0,5,0]`. -/
theorem clean_recovery_mutates_witness :
    (DarkState.auxchan ⟨[0, 0, 5, 0]⟩ : List ℚ) = ([5, 0, 5, 0] : List ℚ).set 0 0 ∧
    rawChannel ⟨[0, 0, 5, 0]⟩ = ([5, 0, 5, 0] : List ℚ).set 0 0 ∧
    ([5, 0, 5, 0] : List ℚ) ≠ [] ∧
    (rawChannel ⟨[0, 0, 5, 0]⟩).getD 0 1 = 0 :=
  clean_recovery_mutates ⟨[5, 0, 5, 0]⟩ 2 1 5 [0, 2] 1
    (some 2, some 0, 3) ⟨[0, 0, 5, 0]⟩ (by decide) (by decide)

/-! ## Frame clock: degenerate inputs and fUSI spurious-edge filtering -/

theorem diffsN_length (l : List ℕ) : (diffsN l).length = l.length - 1 := by
  simp only [diffsN, List.length_zipWith, List.length_tail]
  omega

theorem pyStride_length_le (l : List α) (a b : ℕ) :
    (pyStride l a b).length ≤ l.length := by
  calc (pyStride l a b).length ≤ (List.range l.length).length :=
        List.length_filterMap_le _ _
    _ = l.length := List.length_range _

theorem ifiOf_none (fo : List ℕ) (sf : ℕ) (h : fo.length < 2) :
    ifiOf fo sf = none := by
  have h1 : (diffsN fo).length = 0 := by rw [diffsN_length]; omega
  have h2 : diffsN fo = [] := List.eq_nil_of_length_eq_zero h1
  simp [ifiOf, h2]

/-- C7 (amended): when fewer than 2 edges are detected on the frame-count
channel, the standard-mode frame-clock computation returns a degenerate
result (fewer than 2 onsets and a NaN inter-frame interval) without
raising; the fUSI-mode computation, however, raises (an `IndexError` from
`ifis[i]` inside the startup-trigger loop, modelled as `none`). -/
theorem frameclock_few_edges (data : List ℚ) (thr : ℚ) (plane nplanes sf : ℕ) :
    ((risingEdges data thr).length < 2 →
      (calcImagingFramesStd data thr plane nplanes sf).2 = none ∧
      (calcImagingFramesStd data thr plane nplanes sf).1.length < 2)
    ∧ ((bothEdges data thr).length < 2 →
      calcImagingFramesFUSI data thr plane nplanes sf = none) := by
  constructor
  · intro h
    have hlen : (if 1 < nplanes then
        pyStride (risingEdges data thr) plane nplanes
        else risingEdges data thr).length < 2 := by
      split
      · exact lt_of_le_of_lt (pyStride_length_le _ _ _) h
      · exact h
    exact ⟨ifiOf_none _ sf hlen, hlen⟩
  · intro h
    have h1 : diffsN (bothEdges data thr) = [] :=
      List.eq_nil_of_length_eq_zero (by rw [diffsN_length]; omega)
    have h2 : fusiGo ([] : List ℤ) none 0 100 = none := rfl
    simp [calcImagingFramesFUSI, fusiFilter, h1, midWindow, h2]

/-- Witness for C7 at a concrete input: the channel `[0,5]` has a single
edge in either mode; standard mode degrades gracefully, fUSI mode raises. -/
theorem frameclock_few_edges_witness :
    ((calcImagingFramesStd [0, 5] 2 0 1 1000).2 = none ∧
      (calcImagingFramesStd [0, 5] 2 0 1 1000).1.length < 2) ∧
    calcImagingFramesFUSI [0, 5] 2 0 1 1000 = none :=
  ⟨(frameclock_few_edges [0, 5] 2 0 1 1000).1 (by decide),
    (frameclock_few_edges [0, 5] 2 0 1 1000).2 (by decide)⟩

/-- Counterexample to C7 as stated: on the channel `[0,5]` (one detected
edge, so fewer than 2), the fUSI-mode frame-clock computation raises
(modelled by `none`) instead of returning a degenerate empty-interval
result. -/
theorem frameclock_few_edges_fusi_raises :
    calcImagingFramesFUSI [0, 5] 2 0 1 1000 = none := by
  decide

theorem fusiGo_breaks (ifis : List ℤ) (m : ℚ) (k : ℕ)
    (hk100 : k ≤ 100) (hk : k < ifis.length)
    (hs : ∀ i < k, ((ifis.getD i 0 : ℤ) : ℚ) < 7/10 * m)
    (hr : ¬(((ifis.getD k 0 : ℤ) : ℚ) < 7/10 * m)) :
    ∀ fuel i, i ≤ k → i + fuel = 100 → fusiGo ifis (some m) i fuel = some k := by
  intro fuel
  induction fuel with
  | zero =>
    intro i h1 h2
    have h3 : fusiGo ifis (some m) i 0 = some 100 := rfl
    have h4 : k = 100 := by omega
    rw [h3, h4]
  | succ fuel ih =>
    intro i h1 h2
    have hget : ifis.get? i = some (ifis.getD i 0) := by
      rw [List.get?_eq_getElem?, List.getElem?_eq_getElem (by omega),
        List.getD_eq_getElem _ _ (by omega)]
    rcases Nat.lt_or_ge i k with hik | hik
    · have := hs i hik
      simp only [fusiGo, hget, this, if_true]
      exact ih (i + 1) (by omega) (by omega)
    · have : i = k := by omega
      subst this
      simp only [fusiGo, hget, hr, if_false]

/-- C2 (amended): in fUSI mode, an edge train made of at most 100 leading
edges `s` whose gap to their successor is below 70% of the
trimmed-middle-window mean gap, followed by the regular-gap edges `r`
(first regular gap not short), is filtered to exactly `r` minus its first
and last elements — `r.length - 2` frame onsets.  (The startup scan is
capped at 100 iterations, so more than 100 spurious leading edges are not
all removed.) -/
theorem fusi_filter_drops_spurious_and_boundary (s r : List ℕ)
    (hk100 : s.length ≤ 100)
    (hlen : s.length < (diffsN (s ++ r)).length)
    (hmid : (midWindow (diffsN (s ++ r))).isEmpty = false)
    (hs : ∀ i < s.length,
      (((diffsN (s ++ r)).getD i 0 : ℤ) : ℚ) <
        7/10 * meanInt (midWindow (diffsN (s ++ r))))
    (hr : ¬((((diffsN (s ++ r)).getD s.length 0 : ℤ) : ℚ) <
        7/10 * meanInt (midWindow (diffsN (s ++ r))))) :
    fusiFilter (s ++ r) = some ((r.drop 1).dropLast) ∧
    ((r.drop 1).dropLast).length = r.length - 2 := by
  have hgo := fusiGo_breaks (diffsN (s ++ r))
    (meanInt (midWindow (diffsN (s ++ r)))) s.length hk100 hlen hs hr
    100 0 (by omega) (by omega)
  constructor
  · simp only [fusiFilter, hmid, Bool.false_eq_true, if_false, hgo,
      List.drop_left]
  · rw [List.length_dropLast, List.length_drop]
    have h2 : 2 ≤ r.length := by
      rw [diffsN_length, List.length_append] at hlen
      omega
    omega

set_option maxRecDepth 40000 in
/-- Counterexample to C2 as stated: an edge train of 101 leading edges
with gap 1 — every one of them below 70% of the trimmed-middle-window
mean gap — followed by 45 regular edges with gap 10.  The startup scan is
capped at 100 iterations, so one spurious edge survives and the filtered
clock has 44 onsets, not 45 − 2 = 43. -/
theorem fusi_filter_cap_at_100 :
    (∀ i < 101,
      (((diffsN ((List.range 101) ++
          (List.range 45).map (fun i => 101 + 10 * i))).getD i 0 : ℤ) : ℚ) <
        7/10 * meanInt (midWindow (diffsN ((List.range 101) ++
          (List.range 45).map (fun i => 101 + 10 * i))))) ∧
    (fusiFilter ((List.range 101) ++
        (List.range 45).map (fun i => 101 + 10 * i))).map List.length =
      some 44 ∧
    (44 : ℕ) ≠ 45 - 2 := by
  refine ⟨by decide, by decide, by decide⟩

/-- Witness for C2 at a concrete input: 5 leading edges with gap 1
(below 70% of the middle-window mean gap 10) followed by 45 regular edges
with gap 10; the filtered clock has 45 − 2 = 43 onsets. -/
theorem fusi_filter_drops_spurious_and_boundary_witness :
    fusiFilter ([0, 1, 2, 3, 4] ++
        (List.range 45).map (fun i => 5 + 10 * i)) =
      some (((((List.range 45).map (fun i => 5 + 10 * i)).drop 1)).dropLast) ∧
    (((((List.range 45).map (fun i => 5 + 10 * i)).drop 1)).dropLast).length =
      ((List.range 45).map (fun i => 5 + 10 * i)).length - 2 :=
  fusi_filter_drops_spurious_and_boundary [0, 1, 2, 3, 4]
    ((List.range 45).map (fun i => 5 + 10 * i))
    (by decide) (by decide) (by decide) (by decide) (by decide)

/-! ## Imaging-plane selection: the setter does not recompute -/

/-- Counterexample to C1 as stated: on a two-plane session whose frame
channel has rising edges at samples 1, 3, 5, 7, the frame clock stored at
construction (plane 0: onsets 1, 5) is still returned after selecting
plane 1, and differs from the recomputation with the new plane index
(onsets 3, 7). -/
theorem imagingplane_setter_stale :
    imagingframes (setImagingplane
        (mkLvdAux [0, 5, 0, 5, 0, 5, 0, 5, 0] 2 2 1000) 1) ≠
      (calcImagingFramesStd [0, 5, 0, 5, 0, 5, 0, 5, 0] 2 1 2 1000).1 := by
  decide

/-- C1 (amended): assigning to the imaging-plane setter records the new
index but performs no recomputation: the stored frame-onset sequence, the
inter-frame interval, the event-to-frame mappings and the per-frame
running speed all keep the values computed at construction time (which
used plane index 0), unchanged by the mutation. -/
theorem imagingplane_setter_no_recompute (s : LvdAux) (n : ℕ) :
    (setImagingplane s n).imagingplane = n
    ∧ imagingframes (setImagingplane s n) = imagingframes s
    ∧ imagingifi (setImagingplane s n) = imagingifi s
    ∧ (∀ data thr onEdges,
        sessionEventFrames (setImagingplane s n) data thr onEdges =
          sessionEventFrames s data thr onEdges)
    ∧ (∀ ballraw,
        sessionRunningspeed (setImagingplane s n) ballraw =
          sessionRunningspeed s ballraw)
    ∧ (∀ fc thr nplanes sf,
        imagingframes (mkLvdAux fc thr nplanes sf) =
          (calcImagingFramesStd fc thr 0 nplanes sf).1 ∧
        imagingifi (mkLvdAux fc thr nplanes sf) =
          (calcImagingFramesStd fc thr 0 nplanes sf).2) :=
  ⟨rfl, rfl, rfl, fun _ _ _ => rfl, fun _ => rfl, fun _ _ _ _ => ⟨rfl, rfl⟩⟩

/-! ## Behavior-only running-speed binning -/

set_option maxRecDepth 20000 in
/-- C3: the behavior-only `runningspeed` uses `int(sf/100)` samples per
bin, i.e. 10 ms bins — not the 100 ms (`sf/10`-sample) bins stated.  At
`sf = 1000` Hz a 100-sample smoothed speed trace yields 10 bins of
`1000/100 = 10` samples each, where 100 ms bins (`1000/10 = 100` samples)
would yield a single bin. -/
theorem runningspeed_behavior_bins :
    runningspeedBehav (List.replicate 101 0) 1000 =
      some (List.replicate 10 0) ∧
    (1000 : ℕ) / 100 = 10 ∧ (1000 : ℕ) / 10 = 100 := by
  refine ⟨by decide, by decide, by decide⟩

/-! ## Ball-position unwrapping -/

theorem diffsQ_length (l : List ℚ) : (diffsQ l).length = l.length - 1 := by
  simp only [diffsQ, List.length_zipWith, List.length_tail]
  omega

theorem diffsQ_getD (l : List ℚ) (i : ℕ) (h : i + 1 < l.length) :
    (diffsQ l).getD i 0 = l.getD (i + 1) 0 - l.getD i 0 := by
  have hlen : i < (diffsQ l).length := by rw [diffsQ_length]; omega
  rw [List.getD_eq_getElem _ _ hlen, List.getD_eq_getElem _ _ h,
    List.getD_eq_getElem _ _ (by omega : i < l.length)]
  simp only [diffsQ, List.getElem_zipWith, List.getElem_tail]

theorem mem_wrapFlips (raw : List ℚ) (i : ℕ) (hi : i + 1 < raw.length) :
    i ∈ wrapFlips raw ↔ 2 < |raw.getD (i + 1) 0 - raw.getD i 0| := by
  rw [wrapFlips, List.mem_filter]
  rw [diffsQ_getD raw i hi]
  simp only [List.mem_range, decide_eq_true_eq]
  constructor
  · exact fun h => h.2
  · intro h
    exact ⟨by rw [diffsQ_length]; omega, h⟩

theorem offsetAt_append (raw : List ℚ) (l1 l2 : List ℕ) (i : ℕ) :
    offsetAt raw (l1 ++ l2) i = offsetAt raw l1 i + offsetAt raw l2 i := by
  induction l1 with
  | nil => simp [offsetAt]
  | cons g gs ih =>
    rw [List.cons_append,
      show offsetAt raw (g :: (gs ++ l2)) i =
        (if g + 1 ≤ i then raw.getD g 0 - raw.getD (g + 1) 0 else 0) +
          offsetAt raw (gs ++ l2) i from rfl,
      ih,
      show offsetAt raw (g :: gs) i =
        (if g + 1 ≤ i then raw.getD g 0 - raw.getD (g + 1) 0 else 0) +
          offsetAt raw gs i from rfl]
    ring

theorem offsetAt_succ_of_lt (raw : List ℚ) (done : List ℕ) (f : ℕ)
    (h : ∀ g ∈ done, g < f) : offsetAt raw done (f + 1) = offsetAt raw done f := by
  induction done with
  | nil => rfl
  | cons g gs ih =>
    have hg := h g (List.mem_cons_self g gs)
    simp only [offsetAt, if_pos (by omega : g + 1 ≤ f + 1),
      if_pos (by omega : g + 1 ≤ f)]
    rw [ih (fun g' hg' => h g' (List.mem_cons_of_mem g hg'))]

theorem offsetAt_succ_sub (raw : List ℚ) (fs : List ℕ) (hnd : fs.Nodup)
    (i : ℕ) :
    offsetAt raw fs (i + 1) - offsetAt raw fs i =
      if i ∈ fs then raw.getD i 0 - raw.getD (i + 1) 0 else 0 := by
  induction fs with
  | nil => simp [offsetAt]
  | cons g gs ih =>
    obtain ⟨hg, hgs⟩ := List.nodup_cons.mp hnd
    by_cases hgi : g = i
    · subst hgi
      have hmem : g ∈ g :: gs := List.mem_cons_self g gs
      have ihv := ih hgs
      rw [if_neg hg] at ihv
      simp only [offsetAt, if_pos (by omega : g + 1 ≤ g + 1),
        if_neg (by omega : ¬(g + 1 ≤ g)), if_pos hmem]
      have : offsetAt raw gs (g + 1) - offsetAt raw gs g = 0 := ihv
      ring_nf
      ring_nf at this
      linarith
    · have hmem : (i ∈ g :: gs) ↔ (i ∈ gs) := by
        simp [List.mem_cons, Ne.symm hgi]
      have ihv := ih hgs
      by_cases hle : g + 1 ≤ i
      · simp only [offsetAt, if_pos (by omega : g + 1 ≤ i + 1), if_pos hle,
          hmem]
        rw [← ihv]
        ring
      · have hlt : ¬(g + 1 ≤ i + 1) := by omega
        simp only [offsetAt, if_neg hlt, if_neg hle, hmem]
        rw [← ihv]
        ring

theorem unwrap_fold (raw : List ℚ) (fs : List ℕ)
    (hb : ∀ f ∈ fs, f + 1 < raw.length)
    (hp : List.Pairwise (· < ·) fs) :
    ∀ done p, (∀ f ∈ fs, ∀ g ∈ done, g < f) →
      p.length = raw.length →
      (∀ i < raw.length, p.getD i 0 = raw.getD i 0 + offsetAt raw done i) →
      (fs.foldl (fun q f => addFrom q (f + 1) (q.getD f 0 - q.getD (f + 1) 0))
          p).length = raw.length ∧
      (∀ i < raw.length,
        (fs.foldl (fun q f => addFrom q (f + 1) (q.getD f 0 - q.getD (f + 1) 0))
            p).getD i 0 = raw.getD i 0 + offsetAt raw (done ++ fs) i) := by
  induction fs with
  | nil =>
    intro done p _ hlen hval
    refine ⟨hlen, ?_⟩
    intro i hi
    rw [List.foldl_nil, hval i hi, List.append_nil]
  | cons f fs ih =>
    intro done p hdone hlen hval
    have hf1 : f + 1 < raw.length := hb f (List.mem_cons_self f fs)
    have hgdone : ∀ g ∈ done, g < f :=
      fun g hg => hdone f (List.mem_cons_self f fs) g hg
    have hvf : p.getD f 0 = raw.getD f 0 + offsetAt raw done f :=
      hval f (by omega)
    have hvf1 : p.getD (f + 1) 0 = raw.getD (f + 1) 0 + offsetAt raw done (f + 1) :=
      hval (f + 1) hf1
    have hoffeq : offsetAt raw done (f + 1) = offsetAt raw done f :=
      offsetAt_succ_of_lt raw done f hgdone
    have hδ : p.getD f 0 - p.getD (f + 1) 0 =
        raw.getD f 0 - raw.getD (f + 1) 0 := by
      rw [hvf, hvf1, hoffeq]
      ring
    rw [List.foldl_cons]
    have hlen1 : (addFrom p (f + 1) (p.getD f 0 - p.getD (f + 1) 0)).length =
        raw.length := by
      rw [addFrom, List.length_map, List.length_range, hlen]
    have hval1 : ∀ i < raw.length,
        (addFrom p (f + 1) (p.getD f 0 - p.getD (f + 1) 0)).getD i 0 =
          raw.getD i 0 + offsetAt raw (done ++ [f]) i := by
      intro i hi
      simp only [addFrom]
      rw [getD_map_range, if_pos (show i < p.length by omega),
        offsetAt_append]
      by_cases hle : f + 1 ≤ i
      · rw [if_pos hle, hval i hi, hδ]
        simp only [offsetAt, if_pos hle]
        ring
      · rw [if_neg hle, hval i hi]
        simp only [offsetAt, if_neg hle]
        ring
    have hfs : ∀ f' ∈ fs, ∀ g ∈ done ++ [f], g < f' := by
      intro f' hf' g hg
      rcases List.mem_append.mp hg with hg | hg
      · exact hdone f' (List.mem_cons_of_mem f hf') g hg
      · rw [List.mem_singleton.mp hg]
        exact (List.pairwise_cons.mp hp).1 f' hf'
    have := ih (fun f' hf' => hb f' (List.mem_cons_of_mem f hf'))
      ((List.pairwise_cons.mp hp).2) (done ++ [f])
      (addFrom p (f + 1) (p.getD f 0 - p.getD (f + 1) 0)) hfs hlen1 hval1
    rw [List.append_assoc, List.singleton_append] at this
    exact this

theorem positionUnwrap_spec_aux (raw : List ℚ) :
    (positionUnwrap raw).length = raw.length ∧
    ∀ i < raw.length,
      (positionUnwrap raw).getD i 0 =
        raw.getD i 0 + offsetAt raw (wrapFlips raw) i := by
  have hb : ∀ f ∈ wrapFlips raw, f + 1 < raw.length := by
    intro f hf
    have := (List.mem_filter.mp hf).1
    rw [List.mem_range, diffsQ_length] at this
    omega
  have hp : List.Pairwise (· < ·) (wrapFlips raw) :=
    (List.pairwise_lt_range _).sublist (List.filter_sublist _)
  have h := unwrap_fold raw (wrapFlips raw) hb hp [] raw
    (fun _ _ g hg => absurd hg (List.not_mem_nil g)) rfl
    (by intro i _; simp [offsetAt])
  rw [List.nil_append] at h
  exact h

/-- C9: the unwrapped ball-position trace has the same length as the raw
trace; at every wrap point (raw first difference exceeding 2 in absolute
value) the unwrapped first difference is exactly 0, all other first
differences are unchanged from the raw trace, and consequently no
adjacent-sample jump of the unwrapped trace exceeds the wrap threshold 2
anywhere. -/
theorem position_unwrap_no_jumps (raw : List ℚ) :
    (positionUnwrap raw).length = raw.length
    ∧ ∀ i, i + 1 < raw.length →
        ((positionUnwrap raw).getD (i + 1) 0 - (positionUnwrap raw).getD i 0 =
          if 2 < |raw.getD (i + 1) 0 - raw.getD i 0| then 0
          else raw.getD (i + 1) 0 - raw.getD i 0)
        ∧ |(positionUnwrap raw).getD (i + 1) 0 -
            (positionUnwrap raw).getD i 0| ≤ 2 := by
  obtain ⟨hlen, hval⟩ := positionUnwrap_spec_aux raw
  refine ⟨hlen, ?_⟩
  intro i hi
  have h1 := hval i (by omega)
  have h2 := hval (i + 1) hi
  have hnd : (wrapFlips raw).Nodup :=
    ((List.pairwise_lt_range _).sublist (List.filter_sublist _)).imp ne_of_lt
  have hdiff := offsetAt_succ_sub raw (wrapFlips raw) hnd i
  have hmem := mem_wrapFlips raw i hi
  by_cases hflip : 2 < |raw.getD (i + 1) 0 - raw.getD i 0|
  · have hin : i ∈ wrapFlips raw := hmem.mpr hflip
    rw [if_pos hin] at hdiff
    have hz : (positionUnwrap raw).getD (i + 1) 0 -
        (positionUnwrap raw).getD i 0 = 0 := by
      rw [h1, h2]
      linarith
    rw [hz, if_pos hflip]
    simp
  · have hin : i ∉ wrapFlips raw := fun hin => hflip (hmem.mp hin)
    rw [if_neg hin] at hdiff
    have hz : (positionUnwrap raw).getD (i + 1) 0 -
        (positionUnwrap raw).getD i 0 =
        raw.getD (i + 1) 0 - raw.getD i 0 := by
      rw [h1, h2]
      linarith
    rw [hz, if_neg hflip]
    exact ⟨rfl, le_of_not_lt hflip⟩

/-- Witness for C9 at the spec's concrete input `[0, 1, 4.5, 0.2]` (a wrap
between indices 1 and 2): the unwrapped trace has no jump above 2 there. -/
theorem position_unwrap_no_jumps_witness :
    |(positionUnwrap [0, 1, 9/2, 1/5]).getD 2 0 -
      (positionUnwrap [0, 1, 9/2, 1/5]).getD 1 0| ≤ 2 :=
  ((position_unwrap_no_jumps [0, 1, 9/2, 1/5]).2 1 (by decide)).2

/-! ## Channel cleaning: majority vote within on-intervals -/

theorem getD_le_getD_of_sorted {l : List ℤ} (h : l.Sorted (· ≤ ·)) {i j : ℕ}
    (hij : i ≤ j) (hj : j < l.length) : l.getD i 0 ≤ l.getD j 0 := by
  rcases Nat.eq_or_lt_of_le hij with rfl | hij
  · exact le_refl _
  · rw [List.getD_eq_getElem _ _ (by omega), List.getD_eq_getElem _ _ hj]
    exact List.pairwise_iff_getElem.mp h i j (by omega) hj hij

theorem sortedUnique_perm_dedup (l : List ℤ) : List.Perm (sortedUnique l) l.dedup :=
  List.perm_insertionSort _ _

theorem mem_sortedUnique (l : List ℤ) (v : ℤ) :
    v ∈ sortedUnique l ↔ v ∈ l := by
  rw [(sortedUnique_perm_dedup l).mem_iff, List.mem_dedup]

theorem modeLowest_spec (l : List ℤ) (h : l ≠ []) :
    modeLowest l ∈ l ∧
    (∀ v ∈ l, l.count v ≤ l.count (modeLowest l)) ∧
    (∀ v ∈ l, l.count v = l.count (modeLowest l) → modeLowest l ≤ v) := by
  have hvne : sortedUnique l ≠ [] := by
    intro hnil
    have := (sortedUnique_perm_dedup l).length_eq
    rw [hnil] at this
    exact h ((List.dedup_eq_nil _).mp (List.eq_nil_of_length_eq_zero this.symm))
  have hsorted : (sortedUnique l).Sorted (· ≤ ·) :=
    List.sorted_insertionSort _ _
  have hclen : ((sortedUnique l).map (fun v => l.count v)).length =
      (sortedUnique l).length := List.length_map _ _
  have hcne : (sortedUnique l).map (fun v => l.count v) ≠ [] := by
    intro hnil
    exact hvne (List.map_eq_nil_iff.mp hnil)
  have hk : firstIdxMax ((sortedUnique l).map (fun v => l.count v)) <
      (sortedUnique l).length := by
    rw [← hclen]
    exact firstIdxMax_lt_length _ hcne
  have hmode : modeLowest l = (sortedUnique l).getD
      (firstIdxMax ((sortedUnique l).map (fun v => l.count v))) 0 := rfl
  have hmem : modeLowest l ∈ l := by
    rw [← mem_sortedUnique, hmode, List.getD_eq_getElem _ _ hk]
    exact List.getElem_mem _
  have hcount : ∀ j (hj : j < (sortedUnique l).length),
      ((sortedUnique l).map (fun v => l.count v)).getD j 0 =
        l.count ((sortedUnique l).getD j 0) :=
    fun j hj => getD_map_lt _ _ j hj 0 0
  refine ⟨hmem, ?_, ?_⟩
  · intro v hv
    obtain ⟨j, hj, hjv⟩ := List.mem_iff_getElem.mp
      ((mem_sortedUnique l v).mpr hv)
    have h1 := firstIdxMax_ge ((sortedUnique l).map (fun v => l.count v)) j
      (by rw [hclen]; exact hj)
    rw [hcount j hj, hcount _ hk] at h1
    rw [List.getD_eq_getElem _ _ hj, hjv] at h1
    rw [← hmode] at h1
    exact h1
  · intro v hv hcnt
    obtain ⟨j, hj, hjv⟩ := List.mem_iff_getElem.mp
      ((mem_sortedUnique l v).mpr hv)
    have hnotlt : ¬(j < firstIdxMax ((sortedUnique l).map (fun v => l.count v))) := by
      intro hjk
      have h2 := firstIdxMax_gt_of_lt ((sortedUnique l).map (fun v => l.count v))
        j hjk
      rw [hcount j hj, hcount _ hk] at h2
      rw [List.getD_eq_getElem _ _ hj, hjv] at h2
      rw [← hmode] at h2
      omega
    have h3 := getD_le_getD_of_sorted hsorted (le_of_not_lt hnotlt) hj
    rw [List.getD_eq_getElem _ _ hj, hjv, ← hmode] at h3
    exact h3

theorem setRange_length (l : List ℚ) (a b : ℕ) (v : ℚ) :
    (setRange l a b v).length = l.length := by
  simp [setRange]

theorem setRange_getD (l : List ℚ) (a b : ℕ) (v : ℚ) (i : ℕ) :
    (setRange l a b v).getD i 0 =
      if i < l.length then (if a ≤ i ∧ i < b then v else l.getD i 0)
      else 0 := by
  rw [setRange, getD_map_range]

theorem quantSlice_ne_nil (data : List ℚ) (res : ℚ) (a b : ℕ)
    (h1 : a < b) (h2 : b ≤ data.length) :
    (quantSlice data res a b).isEmpty = false := by
  have : (quantSlice data res a b).length ≠ 0 := by
    simp only [quantSlice, List.length_map, List.length_take, List.length_drop]
    omega
  cases hq : quantSlice data res a b with
  | nil => rw [hq] at this; simp at this
  | cons x xs => rfl

theorem cleanFold_spec (data : List ℚ) (res : ℚ) :
    ∀ (pairs : List (ℕ × ℕ)) (acc : List ℚ),
      acc.length = data.length →
      (∀ p ∈ pairs, p.1 < p.2 ∧ p.2 ≤ data.length) →
      List.Pairwise (fun p q => p.2 ≤ q.1) pairs →
      ∃ out, pairs.foldlM (cleanStep data res) acc = some out ∧
        out.length = data.length ∧
        (∀ p ∈ pairs, ∀ i, p.1 ≤ i → i < p.2 →
          out.getD i 0 = (modeLowest (quantSlice data res p.1 p.2) : ℚ) * res) ∧
        (∀ i, (∀ p ∈ pairs, ¬(p.1 ≤ i ∧ i < p.2)) →
          out.getD i 0 = acc.getD i 0) := by
  intro pairs
  induction pairs with
  | nil =>
    intro acc hlen _ _
    exact ⟨acc, rfl, hlen, by simp, fun i _ => rfl⟩
  | cons p ps ih =>
    intro acc hlen hv hs
    obtain ⟨hp1, hp2⟩ := hv p (List.mem_cons_self p ps)
    have hvals := quantSlice_ne_nil data res p.1 p.2 hp1 hp2
    have hstep : cleanStep data res acc p =
        some (setRange acc p.1 p.2
          ((modeLowest (quantSlice data res p.1 p.2) : ℚ) * res)) := by
      simp only [cleanStep, hvals, Bool.false_eq_true, if_false]
    have hlen1 : (setRange acc p.1 p.2
        ((modeLowest (quantSlice data res p.1 p.2) : ℚ) * res)).length =
        data.length := by
      rw [setRange_length, hlen]
    obtain ⟨out, hfold, hlenout, hcov, hpres⟩ := ih
      (setRange acc p.1 p.2
        ((modeLowest (quantSlice data res p.1 p.2) : ℚ) * res))
      hlen1 (fun q hq => hv q (List.mem_cons_of_mem p hq))
      (List.pairwise_cons.mp hs).2
    refine ⟨out, ?_, hlenout, ?_, ?_⟩
    · rw [List.foldlM_cons, hstep]
      exact hfold
    · intro q hq i hi1 hi2
      rcases List.mem_cons.mp hq with rfl | hq
      · have hnotps : ∀ q' ∈ ps, ¬(q'.1 ≤ i ∧ i < q'.2) := by
          intro q' hq' ⟨hq'1, _⟩
          have := (List.pairwise_cons.mp hs).1 q' hq'
          omega
        rw [hpres i hnotps, setRange_getD,
          if_pos (show i < acc.length by omega), if_pos ⟨hi1, hi2⟩]
      · exact hcov q hq i hi1 hi2
    · intro i hnone
      have hnotp := hnone p (List.mem_cons_self p ps)
      rw [hpres i (fun q hq => hnone q (List.mem_cons_of_mem p hq)),
        setRange_getD]
      rcases Nat.lt_or_ge i acc.length with hi | hi
      · rw [if_pos hi, if_neg hnotp]
      · rw [if_neg (by omega), List.getD_eq_default _ _ hi]

theorem mem_risingEdgesLt_bounds (data : List ℚ) (thr : ℚ) :
    ∀ e ∈ risingEdgesLt data thr, 0 < e ∧ e < data.length := by
  intro e he
  simp only [risingEdgesLt, List.mem_map, List.mem_filter,
    List.mem_range] at he
  obtain ⟨i, ⟨hi, _⟩, rfl⟩ := he
  omega

/-- Counterexample to C8 as stated: on the channel `[5, 0, 5, 0]` (which
starts above the threshold 2, so the first drop precedes the first rising
crossing) the cleaning computation raises (`np.argmax` of an empty slice,
modelled as `none`) instead of returning a same-length output. -/
theorem clean_channel_raises_on_misaligned :
    cleanChannel [5, 0, 5, 0] 2 1 = none := by
  decide

/-- C8 (amended): for every channel, threshold and resolution such that
the rising crossings and the subsequent drops alternate (each paired
rising crossing `u` precedes its drop `d`, and each drop precedes the next
rising crossing), cleaning succeeds with an output of the same length as
the input in which every sample of each on-interval `[u, d)` carries
`μ * resolution`, where `μ` is a quantized value of the interval occurring
at least as often as every other and minimal among the tied ones (the
most frequent quantized value, ties broken toward the lowest).  Channels
whose crossings misalign (e.g. starting above the threshold) raise instead
and are handled by the recovery path. -/
theorem clean_channel_mode_per_interval (data : List ℚ) (thr res : ℚ)
    (hv : ∀ p ∈ (risingEdges data thr).zip (risingEdgesLt data thr),
      p.1 < p.2)
    (hsort : List.Pairwise (fun p q => p.2 ≤ q.1)
      ((risingEdges data thr).zip (risingEdgesLt data thr))) :
    ∃ out, cleanChannel data thr res = some out ∧
      out.length = data.length ∧
      ∀ p ∈ (risingEdges data thr).zip (risingEdgesLt data thr),
        ∀ i, p.1 ≤ i → i < p.2 →
          ∃ μ : ℤ, out.getD i 0 = (μ : ℚ) * res ∧
            μ ∈ quantSlice data res p.1 p.2 ∧
            (∀ v ∈ quantSlice data res p.1 p.2,
              (quantSlice data res p.1 p.2).count v ≤
                (quantSlice data res p.1 p.2).count μ) ∧
            (∀ v ∈ quantSlice data res p.1 p.2,
              (quantSlice data res p.1 p.2).count v =
                (quantSlice data res p.1 p.2).count μ → μ ≤ v) := by
  have hv2 : ∀ p ∈ (risingEdges data thr).zip (risingEdgesLt data thr),
      p.1 < p.2 ∧ p.2 ≤ data.length := by
    intro p hp
    have h2 := (mem_risingEdgesLt_bounds data thr p.2
      (List.of_mem_zip hp).2).2
    exact ⟨hv p hp, le_of_lt h2⟩
  obtain ⟨out, hfold, hlenout, hcov, _⟩ := cleanFold_spec data res
    ((risingEdges data thr).zip (risingEdgesLt data thr))
    (List.replicate data.length 0) (List.length_replicate _ _) hv2 hsort
  refine ⟨out, hfold, hlenout, ?_⟩
  intro p hp i hi1 hi2
  obtain ⟨hp1, hp2⟩ := hv2 p hp
  have hqne : quantSlice data res p.1 p.2 ≠ [] := by
    intro hnil
    have := quantSlice_ne_nil data res p.1 p.2 hp1 hp2
    rw [hnil] at this
    simp at this
  obtain ⟨hmem, hmax, htie⟩ := modeLowest_spec (quantSlice data res p.1 p.2)
    hqne
  exact ⟨modeLowest (quantSlice data res p.1 p.2),
    hcov p hp i hi1 hi2, hmem, hmax, htie⟩

/-- Witness for C8 at a concrete input: channel `[0,5,5,0,3,0]` with
threshold 2 and resolution 1 has the well-aligned on-intervals `[1,3)` and
`[4,5)`. -/
theorem clean_channel_mode_per_interval_witness :
    ∃ out, cleanChannel [0, 5, 5, 0, 3, 0] 2 1 = some out ∧
      out.length = ([0, 5, 5, 0, 3, 0] : List ℚ).length ∧
      ∀ p ∈ (risingEdges [0, 5, 5, 0, 3, 0] 2).zip
          (risingEdgesLt [0, 5, 5, 0, 3, 0] 2),
        ∀ i, p.1 ≤ i → i < p.2 →
          ∃ μ : ℤ, out.getD i 0 = (μ : ℚ) * 1 ∧
            μ ∈ quantSlice [0, 5, 5, 0, 3, 0] 1 p.1 p.2 ∧
            (∀ v ∈ quantSlice [0, 5, 5, 0, 3, 0] 1 p.1 p.2,
              (quantSlice [0, 5, 5, 0, 3, 0] 1 p.1 p.2).count v ≤
                (quantSlice [0, 5, 5, 0, 3, 0] 1 p.1 p.2).count μ) ∧
            (∀ v ∈ quantSlice [0, 5, 5, 0, 3, 0] 1 p.1 p.2,
              (quantSlice [0, 5, 5, 0, 3, 0] 1 p.1 p.2).count v =
                (quantSlice [0, 5, 5, 0, 3, 0] 1 p.1 p.2).count μ → μ ≤ v) :=
  clean_channel_mode_per_interval [0, 5, 5, 0, 3, 0] 2 1
    (by decide) (by decide)

end AuxRec
